import Mathlib

/-!
Route Optimizer presentation layer — verification development

A shallow embedding in Lean 4 of the route geometry and presentation
reconciliation logic of the Route_Optimizer_v2 frontend:

* the map component (`buildEdgeKey`, `getPriceColor`, `edgeLines`,
  `edgeGeometryByKey`, `buildRouteSegments`), and
* the page state container (`summaryPath`, the summary backfill and the
  success/failure commit paths of `fetchRoute`).

JavaScript numbers are modelled as rationals (`ℚ`); every arithmetic
operation the embedded code performs (comparison, subtraction, division by
a provably nonzero denominator, `min`/`max` clamping) is exact on the
inputs considered, so no floating-point rounding behaviour is relevant to
the proved statements.  A JavaScript `Map` is modelled as an association
list with `Map.set` semantics (replace in place when the key exists,
append otherwise), which preserves insertion order and key uniqueness.
Record lookups built with `lookup[n.id] = n` are modelled as functions
updated left to right, so later entries overwrite earlier ones.
-/

namespace RouteOptimizer

/-- A graph node as declared in the frontend: identifier, longitude `x`,
latitude `y`, and an optional fuel price. -/
structure Node where
  id : String
  x : ℚ
  y : ℚ
  fuel_price : Option ℚ
  deriving DecidableEq, Repr

/-- A graph edge as declared in the frontend: endpoints, distance, and an
optional declared geometry, an ordered sequence of `(lon, lat)` points. -/
structure Edge where
  from_ : String
  to_ : String
  distance : ℚ
  geometry : Option (List (ℚ × ℚ))
  deriving DecidableEq, Repr

/-- Embeds `buildEdgeKey`: the canonical, direction-independent key of an
unordered pair of node identifiers
(`a < b ? a+"|"+b : b+"|"+a` in the source). -/
def buildEdgeKey (a b : String) : String :=
  if a < b then a ++ "|" ++ b else b ++ "|" ++ a

/-- A color of the form `hsl(h s% l%)`; the source returns such strings,
which are injective in the three numeric components. -/
inductive Color where
  | hsl (h s l : ℚ)
  deriving DecidableEq, Repr

/-- Embeds `getPriceColor`, the fuel-price color scale.  A degenerate range
(width below `0.001`) yields the fixed color `hsl(202 75% 42%)`;
otherwise the price is normalized over the range, clamped to `[0, 1]`,
and mapped linearly onto the hue segment from `120` down to `0` at fixed
saturation `72%` and lightness `40%`. -/
def getPriceColor (price minPrice maxPrice : ℚ) : Color :=
  if maxPrice - minPrice < 1/1000 then Color.hsl 202 75 42
  else
    let normalized := max 0 (min 1 ((price - minPrice) / (maxPrice - minPrice)))
    Color.hsl (120 - normalized * 120) 72 40

/-- Embeds `nodesById`: the id-indexed node lookup built by
`nodes.forEach(n => lookup[n.id] = n)`; a later node with the same id
overwrites an earlier one. -/
def nodesById (nodes : List Node) : String → Option Node :=
  nodes.foldl (fun acc n => fun i => if i = n.id then some n else acc i)
    (fun _ => none)

/-- The drawable positions of an edge with known endpoint nodes: the
declared geometry with each `(lon, lat)` point swapped to `(lat, lon)`
when the geometry is present and nonempty, otherwise the straight
two-point line between the endpoint coordinates.  This is the expression
`edge.geometry && edge.geometry.length > 0 ? edge.geometry.map(...) : [...]`
shared verbatim by `edgeLines` and `edgeGeometryByKey` in the source. -/
def edgePositions (e : Edge) (fromN toN : Node) : List (ℚ × ℚ) :=
  match e.geometry with
  | some g =>
      if g.length > 0 then g.map (fun p => (p.2, p.1))
      else [(fromN.y, fromN.x), (toN.y, toN.x)]
  | none => [(fromN.y, fromN.x), (toN.y, toN.x)]

/-- A drawable background edge line, as produced by `edgeLines`. -/
structure EdgeLine where
  positions : List (ℚ × ℚ)
  distance : ℚ
  deriving DecidableEq, Repr

/-- Embeds `edgeLines`: one polyline per edge whose two endpoints resolve to
known nodes; edges with an unknown endpoint are dropped
(`.map(... ? null ...).filter(Boolean)` in the source). -/
def edgeLines (edges : List Edge) (nodes : List Node) : List EdgeLine :=
  edges.filterMap (fun e =>
    match nodesById nodes e.from_, nodesById nodes e.to_ with
    | some fn, some tn => some ⟨edgePositions e fn tn, e.distance⟩
    | _, _ => none)

/-- An entry of the edge index: the declared direction and the drawable
positions of one indexed connection. -/
structure EdgeEntry where
  from_ : String
  to_ : String
  positions : List (ℚ × ℚ)
  deriving DecidableEq, Repr

/-- An association list modelling a JavaScript `Map`; `mapSet` is
`Map.set`: replace the binding in place when the key is present,
append a new binding otherwise. -/
def mapSet (m : List (String × EdgeEntry)) (k : String) (v : EdgeEntry) :
    List (String × EdgeEntry) :=
  if m.any (fun p => p.1 = k) then
    m.map (fun p => if p.1 = k then (k, v) else p)
  else m ++ [(k, v)]

/-- Embeds `Map.get`: the binding of the key, if any. -/
def mapGet (m : List (String × EdgeEntry)) (k : String) : Option EdgeEntry :=
  (m.find? (fun p => p.1 = k)).map Prod.snd

/-- Embeds `edgeGeometryByKey`, the edge index.  Each edge whose endpoints both
resolve to known nodes is stored under the canonical key of its endpoint
pair with its declared direction and drawable positions; edges with an
unknown endpoint are skipped, and a later edge with the same canonical
key overwrites an earlier one. -/
def edgeGeometryByKey (edges : List Edge) (nodes : List Node) :
    List (String × EdgeEntry) :=
  edges.foldl (fun byKey e =>
    match nodesById nodes e.from_, nodesById nodes e.to_ with
    | some fn, some tn =>
        mapSet byKey (buildEdgeKey e.from_ e.to_) ⟨e.from_, e.to_, edgePositions e fn tn⟩
    | _, _ => byKey) []

/-- The entry the index stores for one edge, when its endpoints resolve:
the declared direction and the drawable positions; `none` when either
endpoint is unknown. -/
def indexedEntry (nodes : List Node) (e : Edge) : Option EdgeEntry :=
  match nodesById nodes e.from_, nodesById nodes e.to_ with
  | some fn, some tn => some ⟨e.from_, e.to_, edgePositions e fn tn⟩
  | _, _ => none

/-- Reference characterization, following the specified entry policy of
the edge index: the binding of a canonical key is the entry derived from
the *last* connection in input order whose endpoints both resolve and
whose canonical key matches — earlier matches are overwritten, and
connections with other keys or unresolvable endpoints leave the binding
untouched. -/
def lastWriteWins (edges : List Edge) (nodes : List Node) (k : String) :
    Option EdgeEntry :=
  edges.foldl (fun acc e =>
    match indexedEntry nodes e with
    | some entry => if buildEdgeKey e.from_ e.to_ = k then some entry else acc
    | none => acc) none

/-- A drawable route segment as produced by `buildRouteSegments`. -/
structure Segment where
  key : String
  from_ : String
  to_ : String
  positions : List (ℚ × ℚ)
  deriving DecidableEq, Repr

/-- The loop body of `buildRouteSegments`, recursing over consecutive
pairs of the path with the pair index `i`: a self-pair is skipped; a pair
found in the edge index yields the indexed positions, reversed end-to-end
when the indexed declared direction is opposite to the traversal; a pair
not found yields a straight two-point segment when both nodes are known
and is skipped otherwise. -/
def buildRouteSegmentsAux (idx : List (String × EdgeEntry)) (nodes : List Node) :
    List String → Nat → List Segment
  | u :: v :: rest, i =>
    let tail := buildRouteSegmentsAux idx nodes (v :: rest) (i + 1)
    if u = v then tail
    else
      match mapGet idx (buildEdgeKey u v) with
      | some e =>
          let positions :=
            if e.from_ = u ∧ e.to_ = v then e.positions else e.positions.reverse
          ⟨u ++ "-" ++ v ++ "-" ++ toString i, u, v, positions⟩ :: tail
      | none =>
          match nodesById nodes u, nodesById nodes v with
          | some fn, some tn =>
              ⟨u ++ "-" ++ v ++ "-" ++ toString i, u, v,
                [(fn.y, fn.x), (tn.y, tn.x)]⟩ :: tail
          | _, _ => tail
  | _, _ => []

/-- Embeds `buildRouteSegments`, the segment resolver; a path of fewer than two
nodes yields no segments. -/
def buildRouteSegments (idx : List (String × EdgeEntry)) (nodes : List Node)
    (path : List String) : List Segment :=
  if path.length < 2 then [] else buildRouteSegmentsAux idx nodes path 0

/-- A route summary: displayed distance and fuel cost. -/
structure RouteSummary where
  distance_km : ℚ
  fuel_cost : ℚ
  deriving DecidableEq, Repr

/-- A computed route as received from the API.  `total_distance` and
`fuel_cost` are optional because the commit path defends against their
absence with `?? 0` when synthesizing the summary. -/
structure Route where
  path : List String
  total_distance : Option ℚ
  fuel_cost : Option ℚ
  objective : ℚ
  expanded : ℚ
  notes : Option String
  summary : Option RouteSummary
  deriving DecidableEq, Repr

/-- The optional baseline/optimized cost comparison. -/
structure RouteComparison where
  baseline_fuel_cost : ℚ
  optimized_fuel_cost : ℚ
  savings_amount : ℚ
  savings_percent : ℚ
  deriving DecidableEq, Repr

/-- A raw route-query response body.  `route` is optional because the
commit path guards it with `data.route ?? null`. -/
structure RouteResponse where
  api_version : Option String
  nodes : List Node
  edges : List Edge
  route : Option Route
  baseline_path : Option (List String)
  comparison : Option RouteComparison
  deriving DecidableEq, Repr

/-- The loop of `summaryPath`: push each node unless it equals the last
pushed one, collapsing immediate consecutive duplicate identifiers. -/
def dedupConsecutive (path : List String) : List String :=
  path.foldl
    (fun cleaned node =>
      if cleaned = [] ∨ cleaned.getLast? ≠ some node then cleaned ++ [node]
      else cleaned) []

/-- Embeds `summaryPath`: the deduplicated display path; empty when there is no
route or the path of the route is empty (`!route?.path?.length`). -/
def summaryPath (route : Option Route) : List String :=
  match route with
  | none => []
  | some r => if r.path = [] then [] else dedupConsecutive r.path

/-- The summary backfill applied to the fetched route: when `summary` is
absent it is set to `{distance_km: total_distance ?? 0, fuel_cost:
fuel_cost ?? 0}`; a present summary is left untouched. -/
def backfillSummary (r : Route) : Route :=
  match r.summary with
  | none =>
      { r with summary := some ⟨r.total_distance.getD 0, r.fuel_cost.getD 0⟩ }
  | some _ => r

/-- The page state container: the View Model fields (`nodes`, `edges`,
`route`, `baselinePath`, `comparison`) together with the endpoint
selections and the loading/error state. -/
structure ViewState where
  nodes : List Node
  edges : List Edge
  route : Option Route
  baselinePath : List String
  comparison : Option RouteComparison
  fromSel : String
  toSel : String
  loading : Bool
  error : Option String
  deriving DecidableEq, Repr

/-- The engine-specific message of the `TypeError` thrown when the
endpoint-seeding guard reads `data.route.path` on a response without a
route; only its presence, not its text, matters to any statement. -/
def routeAccessErrorMessage : String :=
  "TypeError: cannot read properties of null"

/-- The failure path of `fetchRoute` (catch plus finally): record the
error message, clear the route and the baseline path, and stop loading.
`nodes`, `edges`, `comparison` and the endpoint selections are not
touched. -/
def applyFetchFailure (s : ViewState) (msg : String) : ViewState :=
  { s with error := some msg, route := none, baselinePath := [],
           loading := false }

/-- The success path of `fetchRoute` (the try block after a 2xx response
parsed into `data`, plus finally): commit every View Model field from the
single response `data`, then seed the endpoint selections from the path
ends when the caller did not supply explicit endpoints and the respective
selection was unset.  When the response has no route and the seeding
guard runs, reading `data.route.path` throws; the catch then clears the
route and baseline path and records the error, after the other fields
were already committed. -/
def applyFetchSuccess (s : ViewState) (useCurrentStartGoal : Bool)
    (selectedFrom selectedTo : String) (data : RouteResponse) : ViewState :=
  let s1 : ViewState :=
    { s with
      error := none,
      nodes := data.nodes,
      edges := data.edges,
      route := data.route.map backfillSummary,
      baselinePath := data.baseline_path.getD [],
      comparison := data.comparison }
  match data.route with
  | some r =>
      if ¬useCurrentStartGoal ∧ 0 < r.path.length then
        { s1 with
          fromSel := if selectedFrom = "" then r.path.headD "" else s1.fromSel,
          toSel := if selectedTo = "" then r.path.getLastD "" else s1.toSel,
          loading := false }
      else { s1 with loading := false }
  | none =>
      if useCurrentStartGoal then { s1 with loading := false }
      else
        { s1 with error := some routeAccessErrorMessage, route := none,
                  baselinePath := [], loading := false }

/-- The View Model content committed by one successful fetch, as a
function of the response (and of whether explicit endpoints were used)
alone: the nodes, edges, backfilled route, defaulted baseline path and
comparison of that single response.  When the response has no route and
the seeding guard runs, the caught `TypeError` leaves the route cleared
and the baseline path empty; every field still derives from the one
response. -/
def committedVM (u : Bool) (data : RouteResponse) :
    List Node × List Edge × Option Route × List String × Option RouteComparison :=
  match data.route with
  | some _ =>
      (data.nodes, data.edges, data.route.map backfillSummary,
        data.baseline_path.getD [], data.comparison)
  | none =>
      if u then (data.nodes, data.edges, none, data.baseline_path.getD [], data.comparison)
      else (data.nodes, data.edges, none, [], data.comparison)

/-! ## General lemmas -/

lemma buildEdgeKey_comm (a b : String) : buildEdgeKey a b = buildEdgeKey b a := by
  rcases lt_trichotomy a b with h | h | h
  · rw [buildEdgeKey, if_pos h, buildEdgeKey, if_neg (asymm h)]
  · subst h; rfl
  · rw [buildEdgeKey, if_neg (asymm h), buildEdgeKey, if_pos h]

lemma mapSet_fst (m : List (String × EdgeEntry)) (k : String) (v : EdgeEntry) :
    (mapSet m k v).map Prod.fst =
      if m.any (fun p => p.1 = k) then m.map Prod.fst
      else m.map Prod.fst ++ [k] := by
  rw [mapSet]
  split_ifs with h
  · rw [List.map_map]
    apply List.map_congr_left
    intro p _
    by_cases hp : p.1 = k
    · simp [hp]
    · simp [hp]
  · simp

lemma mapSet_nodup (m : List (String × EdgeEntry)) (k : String) (v : EdgeEntry)
    (h : (m.map Prod.fst).Nodup) : ((mapSet m k v).map Prod.fst).Nodup := by
  rw [mapSet_fst]
  split_ifs with hany
  · exact h
  · refine List.Nodup.append h (List.nodup_singleton k) ?_
    intro x hx hk
    have hxk : x = k := by simpa using hk
    apply hany
    simp only [List.any_eq_true]
    rcases List.mem_map.mp hx with ⟨p, hp, hfst⟩
    exact ⟨p, hp, by simp [hfst, hxk]⟩

lemma mapGet_mapSet_self (m : List (String × EdgeEntry)) (k : String) (v : EdgeEntry) :
    mapGet (mapSet m k v) k = some v := by
  rw [mapSet]
  split_ifs with hany
  · induction m with
    | nil => simp at hany
    | cons p m ih =>
      by_cases hp : p.1 = k
      · simp [mapGet, List.find?, hp]
      · have hany' : m.any (fun q => q.1 = k) = true := by
          simp only [List.any_cons] at hany
          rcases Bool.or_eq_true_iff.mp hany with h1 | h2
          · exact absurd (by simpa using h1) hp
          · exact h2
        have := ih hany'
        simpa [mapGet, List.find?, hp] using this
  · induction m with
    | nil => simp [mapGet, List.find?]
    | cons p m ih =>
      have hp : ¬ p.1 = k := by
        intro hk
        exact hany (by simp [List.any_cons, hk])
      have hany' : ¬ m.any (fun q => q.1 = k) = true := by
        intro hm
        exact hany (by simp [List.any_cons, hm])
      have := ih hany'
      simpa [mapGet, List.find?, hp] using this

lemma find?_map_replace (m : List (String × EdgeEntry)) (k k' : String)
    (v : EdgeEntry) (hne : k' ≠ k) :
    List.find? (fun p => p.1 = k) (m.map (fun p => if p.1 = k' then (k', v) else p))
      = List.find? (fun p => p.1 = k) m := by
  induction m with
  | nil => rfl
  | cons p m ih =>
    by_cases hp : p.1 = k'
    · rw [List.map_cons, if_pos hp]
      rw [List.find?_cons_of_neg _ (by simp [hne]),
        List.find?_cons_of_neg _ (by simp [hp, hne])]
      exact ih
    · rw [List.map_cons, if_neg hp]
      by_cases hpk : p.1 = k
      · rw [List.find?_cons_of_pos _ (by simp [hpk]),
          List.find?_cons_of_pos _ (by simp [hpk])]
      · rw [List.find?_cons_of_neg _ (by simp [hpk]),
          List.find?_cons_of_neg _ (by simp [hpk])]
        exact ih

lemma mapGet_mapSet_ne (m : List (String × EdgeEntry)) (k k' : String)
    (v : EdgeEntry) (hne : k' ≠ k) : mapGet (mapSet m k' v) k = mapGet m k := by
  rw [mapSet]
  split_ifs with hany
  · rw [mapGet, mapGet, find?_map_replace m k k' v hne]
  · rw [mapGet, mapGet, List.find?_append]
    have h1 : List.find? (fun p => p.1 = k) [(k', v)] = none := by
      simp [List.find?, hne]
    rw [h1]
    cases List.find? (fun p => p.1 = k) m <;> rfl

lemma edgeGeometryByKey_concat (edges : List Edge) (nodes : List Node) (e : Edge) :
    edgeGeometryByKey (edges ++ [e]) nodes =
      match nodesById nodes e.from_, nodesById nodes e.to_ with
      | some fn, some tn =>
          mapSet (edgeGeometryByKey edges nodes) (buildEdgeKey e.from_ e.to_)
            ⟨e.from_, e.to_, edgePositions e fn tn⟩
      | _, _ => edgeGeometryByKey edges nodes := by
  rw [edgeGeometryByKey, List.foldl_append, List.foldl_cons, List.foldl_nil]
  rfl

lemma edgeGeometryByKey_fold_nodup (edges : List Edge) (nodes : List Node) :
    ∀ acc : List (String × EdgeEntry), ((acc.map Prod.fst)).Nodup →
      (((edges.foldl (fun byKey e =>
          match nodesById nodes e.from_, nodesById nodes e.to_ with
          | some fn, some tn =>
              mapSet byKey (buildEdgeKey e.from_ e.to_)
                ⟨e.from_, e.to_, edgePositions e fn tn⟩
          | _, _ => byKey) acc).map Prod.fst)).Nodup := by
  induction edges with
  | nil => intro acc h; simpa using h
  | cons e edges ih =>
    intro acc h
    rw [List.foldl_cons]
    apply ih
    cases hf : nodesById nodes e.from_ with
    | none => simpa [hf] using h
    | some fn =>
      cases ht : nodesById nodes e.to_ with
      | none => simpa [hf, ht] using h
      | some tn =>
        simp only [hf, ht]
        exact mapSet_nodup _ _ _ h

lemma edgeIndex_concat_valid (edges : List Edge) (nodes : List Node) (e : Edge)
    (fn tn : Node) (hf : nodesById nodes e.from_ = some fn)
    (ht : nodesById nodes e.to_ = some tn) :
    mapGet (edgeGeometryByKey (edges ++ [e]) nodes) (buildEdgeKey e.from_ e.to_)
      = some ⟨e.from_, e.to_, edgePositions e fn tn⟩ := by
  rw [edgeGeometryByKey_concat]
  simp only [hf, ht]
  exact mapGet_mapSet_self _ _ _

lemma edgeIndex_concat_persists (edges : List Edge) (nodes : List Node) (e : Edge)
    (k : String) (hk : buildEdgeKey e.from_ e.to_ ≠ k) :
    mapGet (edgeGeometryByKey (edges ++ [e]) nodes) k
      = mapGet (edgeGeometryByKey edges nodes) k := by
  rw [edgeGeometryByKey_concat]
  cases hf : nodesById nodes e.from_ with
  | none => simp [hf]
  | some fn =>
    cases ht : nodesById nodes e.to_ with
    | none => simp [hf, ht]
    | some tn =>
      simp only [hf, ht]
      exact mapGet_mapSet_ne _ _ _ _ hk

lemma edgeGeometryByKey_lookup (edges : List Edge) (nodes : List Node) (k : String) :
    mapGet (edgeGeometryByKey edges nodes) k = lastWriteWins edges nodes k := by
  rw [edgeGeometryByKey, lastWriteWins]
  suffices h : ∀ (m : List (String × EdgeEntry)) (o : Option EdgeEntry),
      mapGet m k = o →
      mapGet (edges.foldl (fun byKey e =>
          match nodesById nodes e.from_, nodesById nodes e.to_ with
          | some fn, some tn =>
              mapSet byKey (buildEdgeKey e.from_ e.to_)
                ⟨e.from_, e.to_, edgePositions e fn tn⟩
          | _, _ => byKey) m) k
        = edges.foldl (fun acc e =>
            match indexedEntry nodes e with
            | some entry => if buildEdgeKey e.from_ e.to_ = k then some entry else acc
            | none => acc) o by
    exact h [] none rfl
  induction edges with
  | nil => intro m o ho; simpa using ho
  | cons e edges ih =>
    intro m o ho
    rw [List.foldl_cons, List.foldl_cons]
    cases hf : nodesById nodes e.from_ with
    | none =>
      simp only [hf, indexedEntry]
      exact ih m o ho
    | some fn =>
      cases ht : nodesById nodes e.to_ with
      | none =>
        simp only [hf, ht, indexedEntry]
        exact ih m o ho
      | some tn =>
        simp only [hf, ht, indexedEntry]
        apply ih
        by_cases hk : buildEdgeKey e.from_ e.to_ = k
        · rw [if_pos hk, ← hk]
          exact mapGet_mapSet_self _ _ _
        · rw [if_neg hk, mapGet_mapSet_ne _ _ _ _ hk]
          exact ho

lemma dedupConsecutive_foldl (l acc : List String) (a : String) :
    List.foldl
      (fun cleaned node =>
        if cleaned = [] ∨ cleaned.getLast? ≠ some node then cleaned ++ [node]
        else cleaned) (acc ++ [a]) l
      = acc ++ List.destutter' (fun x y => x ≠ y) a l := by
  induction l generalizing acc a with
  | nil => simp [List.destutter']
  | cons b l ih =>
    rw [List.foldl_cons]
    by_cases hab : a = b
    · subst hab
      have hcond : ¬(acc ++ [a] = [] ∨ (acc ++ [a]).getLast? ≠ some a) := by
        simp
      rw [if_neg hcond, ih, List.destutter'_cons, if_neg (by simp)]
    · have hcond : (acc ++ [a] = [] ∨ (acc ++ [a]).getLast? ≠ some b) := by
        simp [hab]
      rw [if_pos hcond, ih, List.destutter'_cons, if_pos hab]
      simp

lemma dedupConsecutive_eq_destutter (l : List String) :
    dedupConsecutive l = List.destutter (fun x y => x ≠ y) l := by
  cases l with
  | nil => simp [dedupConsecutive, List.destutter]
  | cons a l =>
    have h := dedupConsecutive_foldl l [] a
    simpa [dedupConsecutive, List.destutter_cons'] using h

/-! ## Claims -/

/-- C4: path normalization collapses exactly the immediate consecutive
duplicate identifiers (the loop computes `List.destutter (· ≠ ·)`,
which removes an element exactly when it equals its predecessor) and
preserves non-adjacent repeats: `["A","A","B","C","C","C"]` yields
`["A","B","C"]` and `["A","B","A","C"]` is returned unchanged; the
route-level `summaryPath` applies this to the raw path of the route. -/
theorem claim_C4 :
    (∀ l : List String, dedupConsecutive l = List.destutter (fun x y => x ≠ y) l)
    ∧ dedupConsecutive ["A", "A", "B", "C", "C", "C"] = ["A", "B", "C"]
    ∧ dedupConsecutive ["A", "B", "A", "C"] = ["A", "B", "A", "C"]
    ∧ ∀ r : Route, summaryPath (some r) = dedupConsecutive r.path := by
  refine ⟨dedupConsecutive_eq_destutter, by decide, by decide, ?_⟩
  intro r
  by_cases hp : r.path = []
  · simp [summaryPath, hp, dedupConsecutive]
  · simp [summaryPath, hp]

/-- C5: when `route.summary` is absent, normalization sets it to
`{distance_km: total_distance ?? 0, fuel_cost: fuel_cost ?? 0}` (for
`total_distance = 120.4` and `fuel_cost = 38.2` this yields
`{distance_km: 120.4, fuel_cost: 38.2}`), and a present summary is
passed through unmodified, even when it differs from the
`total_distance`/`fuel_cost` fields. -/
theorem claim_C5 :
    (∀ r : Route, r.summary = none →
        backfillSummary r =
          { r with summary := some ⟨r.total_distance.getD 0, r.fuel_cost.getD 0⟩ })
    ∧ (∀ (r : Route) (s : RouteSummary), r.summary = some s → backfillSummary r = r)
    ∧ (backfillSummary ⟨["A", "B"], some (120.4 : ℚ), some (38.2 : ℚ), 1, 2, none, none⟩).summary
        = some ⟨(120.4 : ℚ), (38.2 : ℚ)⟩
    ∧ backfillSummary ⟨["A", "B"], some (120.4 : ℚ), some (38.2 : ℚ), 1, 2, none,
          some ⟨(999 : ℚ), (1 : ℚ)⟩⟩
        = ⟨["A", "B"], some (120.4 : ℚ), some (38.2 : ℚ), 1, 2, none,
          some ⟨(999 : ℚ), (1 : ℚ)⟩⟩ := by
  refine ⟨?_, ?_, by simp [backfillSummary], by simp [backfillSummary]⟩
  · intro r h
    simp [backfillSummary, h]
  · intro r s h
    simp [backfillSummary, h]

/-- Witness for C5: the backfill and pass-through clauses applied at a
concrete route. -/
theorem claim_C5_witness :
    backfillSummary ⟨["A"], some 3, some 4, 0, 0, none, none⟩ =
      ⟨["A"], some 3, some 4, 0, 0, none, some ⟨3, 4⟩⟩
    ∧ backfillSummary ⟨["A"], some 3, some 4, 0, 0, none, some ⟨9, 9⟩⟩ =
      ⟨["A"], some 3, some 4, 0, 0, none, some ⟨9, 9⟩⟩ := by
  constructor
  · have h := claim_C5.1 ⟨["A"], some 3, some 4, 0, 0, none, none⟩ rfl
    simpa using h
  · exact claim_C5.2.1 ⟨["A"], some 3, some 4, 0, 0, none, some ⟨9, 9⟩⟩ ⟨9, 9⟩ rfl

/-- C8: the price color scale returns the single fixed degenerate-range
color whenever `maxPrice - minPrice < 0.001` (in particular at
`(5, 5, 5.0005)`); otherwise it maps the clamped normalized price
linearly onto a hue, and the two range endpoints receive the two
distinct endpoint hues `120` and `0`. -/
theorem claim_C8 :
    getPriceColor 5 5 (5.0005 : ℚ) = Color.hsl 202 75 42
    ∧ (∀ p mn mx : ℚ, mx - mn < 1/1000 → getPriceColor p mn mx = Color.hsl 202 75 42)
    ∧ (∀ mn mx : ℚ, 1/1000 ≤ mx - mn →
        getPriceColor mn mn mx = Color.hsl 120 72 40
        ∧ getPriceColor mx mn mx = Color.hsl 0 72 40
        ∧ Color.hsl 120 72 40 ≠ Color.hsl 0 72 40)
    ∧ (∀ p mn mx : ℚ, 1/1000 ≤ mx - mn →
        ∃ n : ℚ, 0 ≤ n ∧ n ≤ 1
          ∧ n = max 0 (min 1 ((p - mn) / (mx - mn)))
          ∧ getPriceColor p mn mx = Color.hsl (120 - n * 120) 72 40) := by
  have hne : ∀ mn mx : ℚ, 1/1000 ≤ mx - mn → ¬(mx - mn < 1/1000) :=
    fun mn mx h => not_lt.mpr h
  refine ⟨by norm_num [getPriceColor], ?_, ?_, ?_⟩
  · intro p mn mx h
    rw [getPriceColor, if_pos h]
  · intro mn mx h
    have hpos : (0 : ℚ) < mx - mn := lt_of_lt_of_le (by norm_num) h
    refine ⟨?_, ?_, by simp⟩
    · rw [getPriceColor, if_neg (hne mn mx h)]
      norm_num
    · rw [getPriceColor, if_neg (hne mn mx h)]
      rw [div_self (ne_of_gt hpos)]
      norm_num
  · intro p mn mx h
    refine ⟨max 0 (min 1 ((p - mn) / (mx - mn))), le_max_left 0 _, ?_, rfl, ?_⟩
    · exact max_le (by norm_num) (min_le_left 1 _)
    · rw [getPriceColor, if_neg (hne mn mx h)]

/-- Witness for C8: the degenerate, endpoint and clamped-interpolation
clauses applied at concrete prices. -/
theorem claim_C8_witness :
    getPriceColor 7 5 5 = Color.hsl 202 75 42
    ∧ getPriceColor 0 0 1 = Color.hsl 120 72 40
    ∧ getPriceColor 1 0 1 = Color.hsl 0 72 40 := by
  refine ⟨claim_C8.2.1 7 5 5 (by norm_num), ?_, ?_⟩
  · exact (claim_C8.2.2.1 0 1 (by norm_num)).1
  · exact (claim_C8.2.2.1 0 1 (by norm_num)).2.1

/-- C3 counterexample: a failed fetch does not clear the comparison.
Starting from a state holding a comparison, the failure path keeps it,
so the claim that route, baseline path *and comparison* are all cleared
is false on the code. -/
theorem claim_C3_counterexample :
    (applyFetchFailure
        ⟨[], [], none, [], some ⟨10, 8, 2, 20⟩, "", "", true, none⟩
        "Request failed with status 500").comparison = some ⟨10, 8, 2, 20⟩
    ∧ (some (⟨10, 8, 2, 20⟩ : RouteComparison)) ≠ none := by
  exact ⟨rfl, by simp⟩

/-- C3 (amended): for every failed fetch the error handler records the
error and clears the route and the baseline path, so no stale
route/baseline data is shown alongside the error message; the
comparison field is left unchanged. -/
theorem claim_C3 :
    ∀ (s : ViewState) (msg : String),
      (applyFetchFailure s msg).error = some msg
      ∧ (applyFetchFailure s msg).route = none
      ∧ (applyFetchFailure s msg).baselinePath = []
      ∧ (applyFetchFailure s msg).comparison = s.comparison := by
  intro s msg
  exact ⟨rfl, rfl, rfl, rfl⟩

/-- C10: the failure path leaves the nodes and edges of the View Model
unchanged (the previously fetched graph stays displayed alongside the
error); the comparison and the endpoint selections are untouched as
well, so only route-related state (route, baseline path) and the
loading/error flags are written. -/
theorem claim_C10 :
    ∀ (s : ViewState) (msg : String),
      (applyFetchFailure s msg).nodes = s.nodes
      ∧ (applyFetchFailure s msg).edges = s.edges
      ∧ (applyFetchFailure s msg).fromSel = s.fromSel
      ∧ (applyFetchFailure s msg).toSel = s.toSel := by
  intro s msg
  exact ⟨rfl, rfl, rfl, rfl⟩

/-- C1: when the segment resolver finds the canonical key of a
consecutive pair `(u, v)` in the edge index, the positions of the
emitted segment are the indexed positions taken as-is if the indexed
declared direction is `u → v` and the reversed sequence otherwise; in particular,
for a connection declared from `"A"` to `"B"` with geometry
`[[0,0],[1,1],[2,2]]`, resolving segment `B → A` yields exactly the
reverse of the declared geometry converted to lat/lon order,
`[[2,2],[1,1],[0,0]]`. -/
theorem claim_C1 :
    (∀ (idx : List (String × EdgeEntry)) (nodes : List Node)
        (u v : String) (rest : List String) (i : Nat) (e : EdgeEntry),
        u ≠ v → mapGet idx (buildEdgeKey u v) = some e →
        buildRouteSegmentsAux idx nodes (u :: v :: rest) i =
          ⟨u ++ "-" ++ v ++ "-" ++ toString i, u, v,
            if e.from_ = u ∧ e.to_ = v then e.positions else e.positions.reverse⟩
            :: buildRouteSegmentsAux idx nodes (v :: rest) (i + 1))
    ∧ buildRouteSegments
        (edgeGeometryByKey [⟨"A", "B", 1, some [(0, 0), (1, 1), (2, 2)]⟩]
          [⟨"A", 10, 20, none⟩, ⟨"B", 30, 40, none⟩])
        [⟨"A", 10, 20, none⟩, ⟨"B", 30, 40, none⟩] ["B", "A"] =
        [⟨"B-A-0", "B", "A", [(2, 2), (1, 1), (0, 0)]⟩] := by
  constructor
  · intro idx nodes u v rest i e huv he
    simp [buildRouteSegmentsAux, huv, he]
  · have h1 : ("A" : String) < "B" := by simp; decide
    have h2 : ¬ ("B" : String) < "A" := by simp; decide
    simp [buildRouteSegments, buildRouteSegmentsAux, mapGet, edgeGeometryByKey,
      mapSet, nodesById, buildEdgeKey, edgePositions, h1, h2, List.find?]
    decide

/-- Witness for C1: the found-in-index clause applied at a concrete
index and path, resolving against the declared direction. -/
theorem claim_C1_witness :
    buildRouteSegmentsAux [("A|B", ⟨"A", "B", [(0, 0), (1, 1)]⟩)] [] ["B", "A"] 0 =
      [⟨"B-A-0", "B", "A", [(1, 1), (0, 0)]⟩] := by
  have h2 : ¬ ("B" : String) < "A" := by simp; decide
  have hk : buildEdgeKey "B" "A" = "A|B" := by simp [buildEdgeKey, h2]
  have hget : mapGet [("A|B", (⟨"A", "B", [(0, 0), (1, 1)]⟩ : EdgeEntry))]
      (buildEdgeKey "B" "A") = some ⟨"A", "B", [(0, 0), (1, 1)]⟩ := by
    simp [mapGet, hk, List.find?]
  have h := claim_C1.1 [("A|B", ⟨"A", "B", [(0, 0), (1, 1)]⟩)] [] "B" "A" [] 0
    ⟨"A", "B", [(0, 0), (1, 1)]⟩ (by decide) hget
  rw [h]
  simp [buildRouteSegmentsAux]
  decide

/-- C9: the segment resolver is total by construction (it is a total
function of its inputs); when a consecutive pair `(u, v)` is not found
in the edge index it falls back to the straight two-point segment
between the two known node coordinates, and when either node is unknown
the pair is skipped and no segment is emitted. -/
theorem claim_C9 :
    (∀ (idx : List (String × EdgeEntry)) (nodes : List Node)
        (u v : String) (rest : List String) (i : Nat) (fn tn : Node),
        u ≠ v → mapGet idx (buildEdgeKey u v) = none →
        nodesById nodes u = some fn → nodesById nodes v = some tn →
        buildRouteSegmentsAux idx nodes (u :: v :: rest) i =
          ⟨u ++ "-" ++ v ++ "-" ++ toString i, u, v, [(fn.y, fn.x), (tn.y, tn.x)]⟩
            :: buildRouteSegmentsAux idx nodes (v :: rest) (i + 1))
    ∧ (∀ (idx : List (String × EdgeEntry)) (nodes : List Node)
        (u v : String) (rest : List String) (i : Nat),
        u ≠ v → mapGet idx (buildEdgeKey u v) = none →
        (nodesById nodes u = none ∨ nodesById nodes v = none) →
        buildRouteSegmentsAux idx nodes (u :: v :: rest) i =
          buildRouteSegmentsAux idx nodes (v :: rest) (i + 1)) := by
  constructor
  · intro idx nodes u v rest i fn tn huv he hu hv
    simp [buildRouteSegmentsAux, huv, he, hu, hv]
  · intro idx nodes u v rest i huv he hor
    rcases hor with hu | hv
    · simp [buildRouteSegmentsAux, huv, he, hu]
    · cases hu : nodesById nodes u with
      | none => simp [buildRouteSegmentsAux, huv, he, hu]
      | some fn => simp [buildRouteSegmentsAux, huv, he, hu, hv]

/-- Witness for C9: the straight-line fallback applied to two known
nodes with no declared connection between them. -/
theorem claim_C9_witness :
    buildRouteSegmentsAux [] [⟨"C", 1, 2, none⟩, ⟨"D", 3, 4, none⟩] ["C", "D"] 0 =
      [⟨"C-D-0", "C", "D", [(2, 1), (4, 3)]⟩] := by
  have h := claim_C9.1 [] [⟨"C", 1, 2, none⟩, ⟨"D", 3, 4, none⟩] "C" "D" [] 0
    ⟨"C", 1, 2, none⟩ ⟨"D", 3, 4, none⟩ (by decide) rfl
    (by simp [nodesById]) (by simp [nodesById])
  rw [h]
  simp [buildRouteSegmentsAux]
  decide

lemma applyFetchSuccess_committed (s : ViewState) (u : Bool) (sf st_ : String)
    (data : RouteResponse) :
    ((applyFetchSuccess s u sf st_ data).nodes,
      (applyFetchSuccess s u sf st_ data).edges,
      (applyFetchSuccess s u sf st_ data).route,
      (applyFetchSuccess s u sf st_ data).baselinePath,
      (applyFetchSuccess s u sf st_ data).comparison) = committedVM u data := by
  cases hr : data.route with
  | some r =>
    simp only [applyFetchSuccess, committedVM, hr]
    split_ifs <;> simp
  | none =>
    simp only [applyFetchSuccess, committedVM, hr]
    cases u <;> simp

/-- C2: every successful commit writes the nodes, edges, route, baseline
path and comparison of the View Model from the same single response —
the committed fields are a function of that response alone, independent
of all prior state — and for any sequence of overlapping requests the
final View Model equals the wholesale content of whichever response is
committed last, never pairing fields of two different responses. -/
theorem claim_C2 :
    (∀ (s : ViewState) (u : Bool) (sf st_ : String) (data : RouteResponse),
        ((applyFetchSuccess s u sf st_ data).nodes,
          (applyFetchSuccess s u sf st_ data).edges,
          (applyFetchSuccess s u sf st_ data).route,
          (applyFetchSuccess s u sf st_ data).baselinePath,
          (applyFetchSuccess s u sf st_ data).comparison) = committedVM u data)
    ∧ (∀ (s : ViewState) (reqs : List (Bool × String × String × RouteResponse))
          (u : Bool) (sf st_ : String) (data : RouteResponse),
        (((reqs ++ [(u, sf, st_, data)]).foldl
            (fun st q => applyFetchSuccess st q.1 q.2.1 q.2.2.1 q.2.2.2) s).nodes,
          ((reqs ++ [(u, sf, st_, data)]).foldl
            (fun st q => applyFetchSuccess st q.1 q.2.1 q.2.2.1 q.2.2.2) s).edges,
          ((reqs ++ [(u, sf, st_, data)]).foldl
            (fun st q => applyFetchSuccess st q.1 q.2.1 q.2.2.1 q.2.2.2) s).route,
          ((reqs ++ [(u, sf, st_, data)]).foldl
            (fun st q => applyFetchSuccess st q.1 q.2.1 q.2.2.1 q.2.2.2) s).baselinePath,
          ((reqs ++ [(u, sf, st_, data)]).foldl
            (fun st q => applyFetchSuccess st q.1 q.2.1 q.2.2.1 q.2.2.2) s).comparison)
          = committedVM u data) := by
  refine ⟨applyFetchSuccess_committed, ?_⟩
  intro s reqs u sf st_ data
  rw [List.foldl_append]
  have h := applyFetchSuccess_committed
    (reqs.foldl (fun st q => applyFetchSuccess st q.1 q.2.1 q.2.2.1 q.2.2.2) s)
    u sf st_ data
  simpa using h

/-- C6: the edge index is keyed by the canonical key
`CanonicalKey(a, b) = a < b ? "a|b" : "b|a"`, which is symmetric in its
endpoints (so a connection declared A→B also serves a lookup for B→A);
its keys are pairwise distinct (exactly one entry per canonical key);
for *every* connection list and key, the binding in the built index is
exactly the entry derived from the last connection in input order with
that canonical key and resolvable endpoints (`lastWriteWins`) — so
earlier duplicates are overwritten and bindings persist through later
insertions at other keys, which the two concat clauses also state
directly; and connections with an unresolvable endpoint contribute no
entry. -/
theorem claim_C6 :
    (∀ a b : String, buildEdgeKey a b = buildEdgeKey b a)
    ∧ (∀ (edges : List Edge) (nodes : List Node),
        ((edgeGeometryByKey edges nodes).map Prod.fst).Nodup)
    ∧ (∀ (edges : List Edge) (nodes : List Node) (k : String),
        mapGet (edgeGeometryByKey edges nodes) k = lastWriteWins edges nodes k)
    ∧ (∀ (edges : List Edge) (nodes : List Node) (e : Edge) (k : String),
        buildEdgeKey e.from_ e.to_ ≠ k →
        mapGet (edgeGeometryByKey (edges ++ [e]) nodes) k
          = mapGet (edgeGeometryByKey edges nodes) k)
    ∧ (∀ (edges : List Edge) (nodes : List Node) (e : Edge),
        nodesById nodes e.from_ = none ∨ nodesById nodes e.to_ = none →
        edgeGeometryByKey (edges ++ [e]) nodes = edgeGeometryByKey edges nodes)
    ∧ (∀ (edges : List Edge) (nodes : List Node) (e : Edge) (fn tn : Node),
        nodesById nodes e.from_ = some fn → nodesById nodes e.to_ = some tn →
        mapGet (edgeGeometryByKey (edges ++ [e]) nodes) (buildEdgeKey e.from_ e.to_)
          = some ⟨e.from_, e.to_, edgePositions e fn tn⟩
        ∧ mapGet (edgeGeometryByKey (edges ++ [e]) nodes) (buildEdgeKey e.to_ e.from_)
          = some ⟨e.from_, e.to_, edgePositions e fn tn⟩) := by
  refine ⟨buildEdgeKey_comm, ?_, edgeGeometryByKey_lookup,
    edgeIndex_concat_persists, ?_, ?_⟩
  · intro edges nodes
    exact edgeGeometryByKey_fold_nodup edges nodes [] (by simp)
  · intro edges nodes e hor
    rw [edgeGeometryByKey_concat]
    rcases hor with hf | ht
    · simp [hf]
    · cases hf : nodesById nodes e.from_ <;> simp [hf, ht]
  · intro edges nodes e fn tn hf ht
    refine ⟨edgeIndex_concat_valid edges nodes e fn tn hf ht, ?_⟩
    rw [buildEdgeKey_comm]
    exact edgeIndex_concat_valid edges nodes e fn tn hf ht

/-- Witness for C6: the dropped-connection, reverse-lookup,
general-list last-write-wins (two duplicate declarations of the same
physical connection, the later one winning) and persistence clauses
applied to concrete connection lists and node sets. -/
theorem claim_C6_witness :
    edgeGeometryByKey [⟨"A", "B", 1, none⟩] [] = []
    ∧ mapGet (edgeGeometryByKey [⟨"A", "B", 1, none⟩]
        [⟨"A", 1, 2, none⟩, ⟨"B", 3, 4, none⟩]) (buildEdgeKey "B" "A")
        = some ⟨"A", "B", [(2, 1), (4, 3)]⟩
    ∧ mapGet (edgeGeometryByKey
          [⟨"A", "B", 1, some [(1, 2)]⟩, ⟨"B", "A", 1, some [(3, 4)]⟩]
          [⟨"A", 1, 2, none⟩, ⟨"B", 3, 4, none⟩]) (buildEdgeKey "A" "B")
        = some ⟨"B", "A", [(4, 3)]⟩
    ∧ mapGet (edgeGeometryByKey
          ([⟨"A", "B", 1, some [(1, 2)]⟩] ++ [⟨"C", "D", 1, none⟩])
          [⟨"A", 1, 2, none⟩, ⟨"B", 3, 4, none⟩]) (buildEdgeKey "A" "B")
        = mapGet (edgeGeometryByKey [⟨"A", "B", 1, some [(1, 2)]⟩]
          [⟨"A", 1, 2, none⟩, ⟨"B", 3, 4, none⟩]) (buildEdgeKey "A" "B") := by
  have hab : ("A" : String) < "B" := by simp; decide
  have hban : ¬ ("B" : String) < "A" := by simp; decide
  have hcd : ("C" : String) < "D" := by simp; decide
  refine ⟨?_, ?_, ?_, ?_⟩
  · have h := claim_C6.2.2.2.2.1 [] [] ⟨"A", "B", 1, none⟩ (Or.inl rfl)
    simpa using h
  · have h := (claim_C6.2.2.2.2.2 [] [⟨"A", 1, 2, none⟩, ⟨"B", 3, 4, none⟩]
      ⟨"A", "B", 1, none⟩ ⟨"A", 1, 2, none⟩ ⟨"B", 3, 4, none⟩
      (by simp [nodesById]) (by simp [nodesById])).2
    simpa [edgePositions] using h
  · have h := claim_C6.2.2.1
      [⟨"A", "B", 1, some [(1, 2)]⟩, ⟨"B", "A", 1, some [(3, 4)]⟩]
      [⟨"A", 1, 2, none⟩, ⟨"B", 3, 4, none⟩] (buildEdgeKey "A" "B")
    rw [h]
    simp [lastWriteWins, indexedEntry, nodesById, buildEdgeKey, edgePositions,
      hab, hban]
    decide
  · exact claim_C6.2.2.2.1 [⟨"A", "B", 1, some [(1, 2)]⟩]
      [⟨"A", 1, 2, none⟩, ⟨"B", 3, 4, none⟩] ⟨"C", "D", 1, none⟩
      (buildEdgeKey "A" "B")
      (by simp [buildEdgeKey, hab, hcd])

/-- C7 counterexample: a connection whose geometry is *present but
empty* is indexed with the straight two-point fallback line, not with
positions derived from its geometry, refuting the claim that the
geometry is used whenever it is present. -/
theorem claim_C7_counterexample :
    (⟨"A", "B", 5, some []⟩ : Edge).geometry = some []
    ∧ mapGet (edgeGeometryByKey [⟨"A", "B", 5, some []⟩]
        [⟨"A", 1, 2, none⟩, ⟨"B", 3, 4, none⟩]) (buildEdgeKey "A" "B")
        = some ⟨"A", "B", [(2, 1), (4, 3)]⟩
    ∧ ([] : List (ℚ × ℚ)).map (fun p => (p.2, p.1)) ≠ [(2, 1), (4, 3)] := by
  refine ⟨rfl, ?_, by simp⟩
  have h := edgeIndex_concat_valid [] [⟨"A", 1, 2, none⟩, ⟨"B", 3, 4, none⟩]
    ⟨"A", "B", 5, some []⟩ ⟨"A", 1, 2, none⟩ ⟨"B", 3, 4, none⟩
    (by simp [nodesById]) (by simp [nodesById])
  simpa [edgePositions] using h

/-- C7 (amended): for a connection with both endpoints known, the
indexed positions are derived from its geometry whenever the geometry is
present *and nonempty*, each `[lon, lat]` point converted to
`[lat, lon]`; when the geometry is absent — or present but empty — the
positions are the straight two-point line between the endpoint
coordinates.  The same positions are what the background `edgeLines`
emit for the edge. -/
theorem claim_C7 :
    (∀ (e : Edge) (fn tn : Node) (g : List (ℚ × ℚ)),
        e.geometry = some g → g ≠ [] →
        edgePositions e fn tn = g.map (fun p => (p.2, p.1)))
    ∧ (∀ (e : Edge) (fn tn : Node),
        e.geometry = none ∨ e.geometry = some [] →
        edgePositions e fn tn = [(fn.y, fn.x), (tn.y, tn.x)])
    ∧ (∀ (edges : List Edge) (nodes : List Node) (e : Edge) (fn tn : Node),
        nodesById nodes e.from_ = some fn → nodesById nodes e.to_ = some tn →
        mapGet (edgeGeometryByKey (edges ++ [e]) nodes) (buildEdgeKey e.from_ e.to_)
          = some ⟨e.from_, e.to_, edgePositions e fn tn⟩
        ∧ edgeLines (edges ++ [e]) nodes
          = edgeLines edges nodes ++ [⟨edgePositions e fn tn, e.distance⟩]) := by
  refine ⟨?_, ?_, ?_⟩
  · intro e fn tn g hg hne
    cases g with
    | nil => exact absurd rfl hne
    | cons p g => simp [edgePositions, hg]
  · intro e fn tn hor
    rcases hor with hg | hg <;> simp [edgePositions, hg]
  · intro edges nodes e fn tn hf ht
    refine ⟨edgeIndex_concat_valid edges nodes e fn tn hf ht, ?_⟩
    rw [edgeLines, edgeLines, List.filterMap_append]
    simp [hf, ht]

/-- Witness for C7: the geometry-conversion and fallback clauses applied
at concrete edges. -/
theorem claim_C7_witness :
    edgePositions ⟨"A", "B", 1, some [(1, 2), (3, 4)]⟩ ⟨"A", 9, 9, none⟩
        ⟨"B", 9, 9, none⟩ = [(2, 1), (4, 3)]
    ∧ edgePositions ⟨"A", "B", 1, none⟩ ⟨"A", 1, 2, none⟩ ⟨"B", 3, 4, none⟩
        = [(2, 1), (4, 3)] := by
  constructor
  · have h := claim_C7.1 ⟨"A", "B", 1, some [(1, 2), (3, 4)]⟩ ⟨"A", 9, 9, none⟩
      ⟨"B", 9, 9, none⟩ [(1, 2), (3, 4)] rfl (by simp)
    simpa using h
  · have h := claim_C7.2.1 ⟨"A", "B", 1, none⟩ ⟨"A", 1, 2, none⟩ ⟨"B", 3, 4, none⟩
      (Or.inl rfl)
    simpa using h

end RouteOptimizer
